import Mathlib

/-!
Verification of the MojAlbum downloader (src/mojalbum_downloader.py).

Strings are modelled as `List Char`; Python string helpers (`split`,
`rstrip`, `rsplit`, substring tests) are given executable translations, and
the three regular expressions of the source are translated into executable
matchers whose greedy/backtracking semantics are spelled out definitionally.
The HTML parser (BeautifulSoup) is an external collaborator: a parsed page
is modelled as the document-ordered list of img elements carrying a `src`
attribute, each with its chain of ancestors (nearest parent first), every
ancestor exposing its optional `id` attribute.  The HTTP layer is modelled
by oracle functions: a site (page number to optional markup, `none` being a
transport error) and a photo fetcher (URL to optional byte content).
-/

namespace MojAlbum

/-! ## String utilities (Python built-ins over List Char) -/

/-- Python `s.split(c)` for a one-character separator: splits at every
occurrence, keeping empty pieces; the result is always non-empty. -/
def splitOnChar (c : Char) : List Char → List (List Char)
  | [] => [[]]
  | d :: rest =>
    let r := splitOnChar c rest
    if d = c then [] :: r
    else
      match r with
      | [] => [[d]]
      | h :: t => (d :: h) :: t

/-- Inverse of `splitOnChar`: join pieces with the separator character. -/
def joinChar (c : Char) : List (List Char) → List Char
  | [] => []
  | [x] => x
  | x :: y :: t => x ++ c :: joinChar c (y :: t)

/-- Python `s.rstrip(c)`: remove every trailing occurrence of `c`. -/
def rstripChar (c : Char) (s : List Char) : List Char :=
  (s.reverse.dropWhile (fun d => d = c)).reverse

/-- Python `s.rsplit(c, 1)[0]`: everything before the last occurrence of
`c`, or the whole string when `c` does not occur. -/
def rsplitLast (c : Char) (s : List Char) : List Char :=
  if c ∈ s then ((s.reverse.dropWhile (fun d => d ≠ c)).drop 1).reverse else s

/-- Consume an exact literal from the front of a string; on success return
the remainder. -/
def dropLit : List Char → List Char → Option (List Char)
  | [], s => some s
  | _ :: _, [] => none
  | c :: p, d :: s => if c = d then dropLit p s else none

/-- Split a string at the last occurrence of `pat`: returns
`some (a, b)` with `s = a ++ pat ++ b` and `a` longest possible. -/
def splitLastAt (pat : List Char) : List Char → Option (List Char × List Char)
  | [] => if pat = [] then some ([], []) else none
  | c :: rest =>
    match splitLastAt pat rest with
    | some (a, b) => some (c :: a, b)
    | none => if pat.isPrefixOf (c :: rest) then some ([], (c :: rest).drop pat.length) else none

/-- Python `pat in s`: substring test. -/
def containsSubstr (pat s : List Char) : Bool :=
  (splitLastAt pat s).isSome

/-! ## Data model -/

/-- UrlPattern: the reusable URL template detected from the first page
(`detect_album_pattern`'s return dictionary). -/
structure UrlPattern where
  server : List Char
  middle_part : List Char
  album_path : List Char
deriving DecidableEq, Repr

/-- PhotoDescriptor: one photo's identity as collected by the page scanner
(the `photo_info` dictionaries).  When `has_description` is false the
`description` field is irrelevant and kept empty. -/
structure PhotoInfo where
  id : List Char
  has_description : Bool
  description : List Char
deriving DecidableEq, Repr

/-- AlbumIdentity: user and album name taken from the album URL. -/
structure AlbumInfo where
  user : List Char
  album : List Char
deriving DecidableEq, Repr

/-- One img element as the scanner sees it: its `src` attribute and the
chain of its ancestors, nearest parent first, each contributing its
optional `id` attribute (the HTML parser is an external collaborator, so a
parsed page is abstracted to exactly what the source consults). -/
structure ImgElem where
  src : List Char
  ancestors : List (Option (List Char))
deriving DecidableEq, Repr

/-- A parsed page: the document-ordered list of img elements that carry a
`src` attribute (what `soup.find_all` with `src=True` yields). -/
abbrev Page := List ImgElem

/-! ## extract_album_info (source lines 48-57) -/

/-- Translation of `MojAlbumDownloader.extract_album_info`:
`parts = url.rstrip(sep).split(sep)`; with at least four parts the result
is `parts[-2]` and `parts[-1]`, otherwise the defaults. -/
def extract_album_info (url : List Char) : AlbumInfo :=
  let parts := splitOnChar '/' (rstripChar '/' url)
  if 4 ≤ parts.length then
    { user := parts.getD (parts.length - 2) [], album := parts.getD (parts.length - 1) [] }
  else
    { user := "unknown".toList, album := "album".toList }

/-! ## detect_album_pattern (source lines 59-77)

The regex is `https://s(\d+)\.mojalbum\.com/([^/]+)/([^/]+)/([^/]+)_t\.jpg`
applied with `re.search`.  `matchThumbAt` is the anchored match at one
position; its groups are deterministic: a greedy digit run followed by the
non-digit dot, greedy slash-free runs each followed by the literal slash
their character class excludes, and a final slash-free group whose greedy
choice is the longest prefix of the remaining slash-free run that is
immediately followed by the literal suffix.  `searchThumb` restores
`re.search`'s leftmost-position semantics. -/

/-- Anchored match of the pattern-detection regex at the start of `s`,
returning the four captured groups.  Each `[^/]+` group is the maximal
slash-free run, the literal slash after it is consumed with `dropLit`, and
the final group's greedy choice is the longest slash-free prefix followed
by the literal suffix, i.e. the last occurrence of the suffix within the
final slash-free run. -/
def matchThumbAt (s : List Char) : Option (List Char × List Char × List Char × List Char) :=
  (dropLit "https://s".toList s).bind fun s1 =>
  let g1 := s1.takeWhile fun c => c.isDigit
  if g1 = [] then none else
  (dropLit ".mojalbum.com/".toList (s1.dropWhile fun c => c.isDigit)).bind fun s2 =>
  let g2 := s2.takeWhile fun c => c ≠ '/'
  if g2 = [] then none else
  (dropLit ['/'] (s2.dropWhile fun c => c ≠ '/')).bind fun s3 =>
  let g3 := s3.takeWhile fun c => c ≠ '/'
  if g3 = [] then none else
  (dropLit ['/'] (s3.dropWhile fun c => c ≠ '/')).bind fun s4 =>
  (splitLastAt "_t.jpg".toList (s4.takeWhile fun c => c ≠ '/')).bind fun g4p =>
  if g4p.1 = [] then none else some (g1, g2, g3, g4p.1)

/-- Leftmost search of the pattern-detection regex (`re.search`). -/
def searchThumb : List Char → Option (List Char × List Char × List Char × List Char)
  | [] => matchThumbAt []
  | c :: rest =>
    match matchThumbAt (c :: rest) with
    | some g => some g
    | none => searchThumb rest

/-- Translation of `MojAlbumDownloader.detect_album_pattern`: scan the img
sources in document order; on the first one containing both the thumbnail
suffix and the host that also matches the regex, return the pattern with
the photo id stripped from the middle part. -/
def detect_album_pattern : List (List Char) → Option UrlPattern
  | [] => none
  | src :: rest =>
    if containsSubstr "_t.jpg".toList src && containsSubstr "mojalbum.com".toList src then
      match searchThumb src with
      | some (g1, g2, g3, _) =>
        some { server := g1, middle_part := rsplitLast '_' g2, album_path := g3 }
      | none => detect_album_pattern rest
    else detect_album_pattern rest

/-- Pattern detection on a parsed page: the source runs the regex scan over
all img elements with a `src` attribute, in document order. -/
def detect_on_page (p : Page) : Option UrlPattern :=
  detect_album_pattern (p.map ImgElem.src)

/-! ## construct_direct_url (source lines 79-92) -/

/-- Translation of `MojAlbumDownloader.construct_direct_url`. -/
def construct_direct_url (photo_info : PhotoInfo) (pattern : UrlPattern) : List Char :=
  if photo_info.has_description then
    "https://s".toList ++ pattern.server ++ ".mojalbum.com/".toList ++
      pattern.middle_part ++ "_".toList ++ photo_info.id ++ "/".toList ++
      pattern.album_path ++ "/".toList ++ photo_info.description ++ ".jpg".toList
  else
    "https://s".toList ++ pattern.server ++ ".mojalbum.com/".toList ++
      pattern.middle_part ++ "_".toList ++ photo_info.id ++ "/".toList ++
      pattern.album_path ++ "/".toList ++ photo_info.id ++ ".jpg".toList

/-! ## Page scanning (source lines 127-181)

Rule A is the regex `/(\d+)_t\.jpg$` under `re.search`: the string must end
with the thumbnail suffix, immediately preceded by a non-empty digit run,
immediately preceded by a slash.  Rule B is
`/([^/]+_\d+)/[^/]+/([^/]+)_t\.jpg$` followed by `_(\d+)$` on its first
group: with the end anchor the three final slash-delimited segments are
forced, so the match is again deterministic.  Both are implemented on the
reversed string. -/

/-- Rule A (`filename_pattern`): a purely numeric filename before the
thumbnail suffix; returns the photo id. -/
def ruleA (src : List Char) : Option (List Char) :=
  match dropLit "_t.jpg".toList.reverse src.reverse with
  | none => none
  | some r =>
    let ds := r.takeWhile fun c => c.isDigit
    if ds = [] then none else
    match r.dropWhile fun c => c.isDigit with
    | '/' :: _ => some ds.reverse
    | _ => none

/-- Rule B (`url_parts_pattern` plus `id_pattern`): a non-slash filename
before the suffix becomes the description, and the id is the digit run
ending the segment two levels up, which must have the shape
`<non-empty>_<digits>`.  Returns `(id, description)`. -/
def ruleB (src : List Char) : Option (List Char × List Char) :=
  match dropLit "_t.jpg".toList.reverse src.reverse with
  | none => none
  | some r =>
    let g2 := r.takeWhile fun c => c ≠ '/'
    if g2 = [] then none else
    match r.dropWhile fun c => c ≠ '/' with
    | '/' :: r2 =>
      let seg := r2.takeWhile fun c => c ≠ '/'
      if seg = [] then none else
      match r2.dropWhile fun c => c ≠ '/' with
      | '/' :: r3 =>
        let g1 := r3.takeWhile fun c => c ≠ '/'
        match r3.dropWhile fun c => c ≠ '/' with
        | '/' :: _ =>
          let ds := g1.takeWhile fun c => c.isDigit
          if ds = [] then none else
          match g1.dropWhile fun c => c.isDigit with
          | '_' :: y => if y = [] then none else some (ds.reverse, g2.reverse)
          | _ => none
        | _ => none
      | _ => none
    | _ => none

/-- Descriptor extraction for one surviving candidate (source lines
160-181): try Rule A first; only if it fails, try Rule B. -/
def extractPhoto (src : List Char) : Option PhotoInfo :=
  match ruleA src with
  | some pid => some { id := pid, has_description := false, description := [] }
  | none =>
    match ruleB src with
    | some (pid, descr) => some { id := pid, has_description := true, description := descr }
    | none => none

/-- The similar-items exclusion identifier. -/
def markerId : List Char := "ClassifiedRecommendationsInner".toList

/-- Translation of the ancestor walk (source lines 139-148): climb at most
`n` parents, stopping early at the document root, and report whether one of
them carries the exclusion identifier. -/
def hasMarkerWithin : Nat → List (Option (List Char)) → Bool
  | 0, _ => false
  | _ + 1, [] => false
  | n + 1, a :: rest => if a = some markerId then true else hasMarkerWithin n rest

/-- Per-candidate step of the page scanner (source lines 130-181): the
thumbnail-suffix and host substring filter, then the bounded exclusion
walk, then the two extraction rules. -/
def candStep (img : ImgElem) : Option PhotoInfo :=
  if containsSubstr "_t.jpg".toList img.src && containsSubstr "mojalbum.com".toList img.src then
    if hasMarkerWithin 15 img.ancestors then none
    else extractPhoto img.src
  else none

/-- Page Scanner: the per-page descriptor list `page_photo_ids`, in
document order. -/
def scanPage (p : Page) : List PhotoInfo :=
  p.filterMap candStep

/-! ## Crawl loop (source lines 94-196)

A site is an oracle from page number to optional parsed markup, `none`
standing for a transport error (`requests.RequestException`).  The `while
page <= max_pages` loop is translated with a fuel argument that starts at
20, so iteration `k` handles page `k`; `fetched` counts the page fetches
performed. -/

/-- Result of `get_photo_ids`: the accumulated descriptors, the detected
pattern, and the number of page fetches performed. -/
structure CrawlResult where
  photos : List PhotoInfo
  pattern : Option UrlPattern
  fetched : Nat
deriving DecidableEq, Repr

/-- One translation of the crawl's while loop, by recursion on the number
of pages the ceiling still allows. -/
def crawlLoop (site : Nat → Option Page) :
    Nat → Nat → List PhotoInfo → Option UrlPattern → Nat → CrawlResult
  | 0, _, acc, pat, fetched => ⟨acc, pat, fetched⟩
  | fuel + 1, page, acc, pat, fetched =>
    match site page with
    | none => ⟨acc, pat, fetched + 1⟩
    | some soup =>
      if page = 1 then
        match detect_on_page soup with
        | none => ⟨[], none, fetched + 1⟩
        | some p =>
          let pagePhotos := scanPage soup
          if pagePhotos = [] then ⟨acc, some p, fetched + 1⟩
          else crawlLoop site fuel (page + 1) (acc ++ pagePhotos) (some p) (fetched + 1)
      else
        let pagePhotos := scanPage soup
        if pagePhotos = [] then ⟨acc, pat, fetched + 1⟩
        else crawlLoop site fuel (page + 1) (acc ++ pagePhotos) pat (fetched + 1)

/-- Translation of `MojAlbumDownloader.get_photo_ids`: pages 1 through the
hard ceiling of 20. -/
def get_photo_ids (site : Nat → Option Page) : CrawlResult :=
  crawlLoop site 20 1 [] none 0

/-! ## Download manager (source lines 198-269)

The photo fetcher is an oracle from URL to optional byte content, `none`
standing for a transport error.  The destination directory is an
association list from filename to content, most recent write first. -/

/-- The destination directory's contents. -/
abbrev FileStore := List (List Char × List Nat)

/-- File-existence test (`filepath.exists()`). -/
def fileExists (name : List Char) (fs : FileStore) : Bool :=
  fs.any fun e => e.1 = name

/-- Translation of `MojAlbumDownloader.download_photo`: fetch the URL; only
after a successful response is the local file opened and written, so a
transport error leaves the store untouched and returns `False`. -/
def download_photo (fetch : List Char → Option (List Nat)) (photo_url photo_id : List Char)
    (fs : FileStore) : Bool × FileStore :=
  match fetch photo_url with
  | some bytes => (true, (photo_id ++ ".jpg".toList, bytes) :: fs)
  | none => (false, fs)

/-- Tally of one download run: the counters of `download_all` plus the
number of `download_photo` calls and the resulting file store. -/
structure RunTally where
  successful : Nat
  failed : Nat
  attempts : Nat
  files : FileStore
deriving DecidableEq, Repr

/-- Translation of the per-descriptor loop of `download_all` (source lines
240-263): skip when the file already exists, otherwise reconstruct the
direct URL and download, counting successes and failures. -/
def runDownloads (fetch : List Char → Option (List Nat)) (pattern : UrlPattern) :
    List PhotoInfo → FileStore → RunTally
  | [], fs => ⟨0, 0, 0, fs⟩
  | photo :: rest, fs =>
    if fileExists (photo.id ++ ".jpg".toList) fs then runDownloads fetch pattern rest fs
    else
      let r := download_photo fetch (construct_direct_url photo pattern) photo.id fs
      let t := runDownloads fetch pattern rest r.2
      if r.1 then ⟨t.successful + 1, t.failed, t.attempts + 1, t.files⟩
      else ⟨t.successful, t.failed + 1, t.attempts + 1, t.files⟩

/-- Translation of `MojAlbumDownloader.download_all`: crawl, then bail out
with zero downloads when the descriptor list is empty or no pattern was
detected, otherwise run the download loop. -/
def download_all (site : Nat → Option Page) (fetch : List Char → Option (List Nat))
    (fs : FileStore) : RunTally :=
  let r := get_photo_ids site
  match r.pattern, r.photos with
  | some pat, photo :: rest => runDownloads fetch pat (photo :: rest) fs
  | _, _ => ⟨0, 0, 0, fs⟩

/-! ## Definitions taken from the specification's wording -/

/-- Structural template of a thumbnail source, from the spec:
`https://s<SERVER>.<HOST>/<MIDDLE>_<PHOTOID>/<ALBUMPATH>/<PHOTOID><THUMBSUFFIX>`. -/
def thumbTemplate (server middle photoid albumpath : List Char) : List Char :=
  "https://s".toList ++ server ++ ".mojalbum.com/".toList ++
    middle ++ '_' :: photoid ++ '/' :: albumpath ++ '/' :: photoid ++ "_t.jpg".toList

/-- Spec wording for the middle part: the captured middle segment with its
last underscore-separated component removed. -/
def removeLastComponent (s : List Char) : List Char :=
  joinChar '_' ((splitOnChar '_' s).dropLast)

/-! ## Generic list lemmas -/

theorem takeWhile_append_stop {α : Type} (p : α → Bool) (a : List α) (b : α) (t : List α)
    (ha : ∀ c ∈ a, p c = true) (hb : p b = false) :
    (a ++ b :: t).takeWhile p = a := by
  induction a with
  | nil => simp [List.takeWhile, hb]
  | cons c a ih =>
    have hc : p c = true := ha c (by simp)
    simp only [List.cons_append, List.takeWhile_cons, hc]
    exact congrArg (c :: ·) (ih fun d hd => ha d (by simp [hd]))

theorem dropWhile_append_stop {α : Type} (p : α → Bool) (a : List α) (b : α) (t : List α)
    (ha : ∀ c ∈ a, p c = true) (hb : p b = false) :
    (a ++ b :: t).dropWhile p = b :: t := by
  induction a with
  | nil => simp [List.dropWhile, hb]
  | cons c a ih =>
    have hc : p c = true := ha c (by simp)
    simp only [List.cons_append, List.dropWhile_cons, hc]
    exact ih fun d hd => ha d (by simp [hd])

theorem takeWhile_of_all {α : Type} (p : α → Bool) (s : List α)
    (h : ∀ c ∈ s, p c = true) : s.takeWhile p = s := by
  induction s with
  | nil => rfl
  | cons c s ih =>
    simp only [List.takeWhile_cons, h c (by simp)]
    exact congrArg (c :: ·) (ih fun d hd => h d (by simp [hd]))

theorem dropLit_append (p s : List Char) : dropLit p (p ++ s) = some s := by
  induction p with
  | nil => rfl
  | cons c p ih => simp [dropLit, ih]

theorem isPrefixOf_append_self (l b : List Char) : l.isPrefixOf (l ++ b) = true := by
  induction l with
  | nil => simp [List.isPrefixOf]
  | cons c l ih => simp [List.isPrefixOf, ih]

theorem length_le_of_isPrefixOf :
    ∀ p s : List Char, p.isPrefixOf s = true → p.length ≤ s.length
  | [], _, _ => by simp
  | _ :: _, [], h => by simp [List.isPrefixOf] at h
  | a :: p, b :: s, h => by
    simp only [List.isPrefixOf, Bool.and_eq_true] at h
    simpa using length_le_of_isPrefixOf p s h.2

theorem splitLastAt_of_short (pat : List Char) :
    ∀ s : List Char, s.length < pat.length → splitLastAt pat s = none := by
  intro s
  induction s with
  | nil =>
    intro h
    have : pat ≠ [] := by
      intro hp; rw [hp] at h; simp at h
    simp [splitLastAt, this]
  | cons c rest ih =>
    intro h
    have h1 : splitLastAt pat rest = none :=
      ih (lt_trans (by simp) h)
    have h2 : pat.isPrefixOf (c :: rest) = false := by
      cases hp : pat.isPrefixOf (c :: rest) with
      | false => rfl
      | true => exact absurd (length_le_of_isPrefixOf _ _ hp) (by omega)
    simp [splitLastAt, h1, h2]

theorem splitLastAt_append_self (pat a : List Char) :
    splitLastAt pat (a ++ pat) = some (a, []) := by
  induction a with
  | nil =>
    cases hp : pat with
    | nil => rfl
    | cons p pr =>
      have h1 : splitLastAt (p :: pr) pr = none :=
        splitLastAt_of_short _ _ (by simp)
      have h2 : (p :: pr).isPrefixOf (p :: pr) = true := by
        have h3 := isPrefixOf_append_self (p :: pr) []
        rwa [List.append_nil] at h3
      simp [splitLastAt, h1, h2]
  | cons c a ih =>
    simp [splitLastAt, ih]

theorem containsSubstr_parts (pat a b : List Char) (hpat : pat ≠ []) :
    containsSubstr pat (a ++ (pat ++ b)) = true := by
  induction a with
  | nil =>
    cases hp : pat with
    | nil => exact absurd hp hpat
    | cons p pr =>
      rw [List.nil_append, List.cons_append]
      unfold containsSubstr splitLastAt
      cases h : splitLastAt (p :: pr) (pr ++ b) with
      | some x => simp
      | none =>
        have h2 : (p :: pr).isPrefixOf (p :: pr ++ b) = true := by
          have h3 := isPrefixOf_append_self (p :: pr) b
          rwa [List.cons_append] at h3
        simp [h2]
  | cons c a ih =>
    rw [List.cons_append]
    unfold containsSubstr
    simp only [splitLastAt]
    cases h : splitLastAt pat (a ++ (pat ++ b)) with
    | some x => simp
    | none =>
      unfold containsSubstr at ih
      rw [h] at ih
      simp at ih

theorem splitOnChar_ne_nil (c : Char) (s : List Char) : splitOnChar c s ≠ [] := by
  cases s with
  | nil => simp [splitOnChar]
  | cons d rest =>
    simp only [splitOnChar]
    by_cases h : d = c
    · simp [h]
    · simp only [if_neg h]
      cases splitOnChar c rest with
      | nil => simp
      | cons a t => simp

theorem splitOnChar_append (c : Char) (x y : List Char) :
    splitOnChar c (x ++ c :: y) = splitOnChar c x ++ splitOnChar c y := by
  induction x with
  | nil => simp [splitOnChar]
  | cons d x ih =>
    rw [List.cons_append]
    simp only [splitOnChar, ih]
    by_cases h : d = c
    · simp [h]
    · simp only [if_neg h]
      cases hx : splitOnChar c x with
      | nil => exact absurd hx (splitOnChar_ne_nil c x)
      | cons a t => simp

theorem splitOnChar_no_sep (c : Char) (s : List Char) (h : c ∉ s) :
    splitOnChar c s = [s] := by
  induction s with
  | nil => rfl
  | cons d rest ih =>
    have hd : ¬ d = c := fun he => h (by simp [he])
    have hr : splitOnChar c rest = [rest] := ih fun hm => h (by simp [hm])
    simp [splitOnChar, hd, hr]

theorem joinChar_splitOnChar (c : Char) (s : List Char) :
    joinChar c (splitOnChar c s) = s := by
  induction s with
  | nil => rfl
  | cons d rest ih =>
    simp only [splitOnChar]
    by_cases h : d = c
    · subst h
      simp only [if_pos rfl]
      cases hr : splitOnChar d rest with
      | nil => exact absurd hr (splitOnChar_ne_nil d rest)
      | cons a t =>
        rw [hr] at ih
        simp [joinChar, ih]
    · simp only [if_neg h]
      cases hr : splitOnChar c rest with
      | nil => exact absurd hr (splitOnChar_ne_nil c rest)
      | cons a t =>
        rw [hr] at ih
        cases t with
        | nil => simp_all [joinChar]
        | cons b t2 => simp_all [joinChar]

theorem rsplitLast_append (c : Char) (a b : List Char) (hb : c ∉ b) :
    rsplitLast c (a ++ c :: b) = a := by
  have hmem : c ∈ a ++ c :: b := by simp
  have hrev : (a ++ c :: b).reverse = b.reverse ++ c :: a.reverse := by
    simp
  have hdrop : (b.reverse ++ c :: a.reverse).dropWhile (fun d => d ≠ c) = c :: a.reverse := by
    refine dropWhile_append_stop _ _ _ _ ?_ ?_
    · intro d hd
      have hdb : d ∈ b := by simpa using hd
      simp only [decide_eq_true_eq]
      exact fun he => hb (he ▸ hdb)
    · simp
  unfold rsplitLast
  rw [if_pos hmem, hrev, hdrop]
  simp

theorem removeLastComponent_append (a b : List Char) (hb : '_' ∉ b) :
    removeLastComponent (a ++ '_' :: b) = a := by
  rw [removeLastComponent, splitOnChar_append, splitOnChar_no_sep _ _ hb,
    List.dropLast_concat, joinChar_splitOnChar]

theorem getD_pair_left {α : Type} (init : List α) (u a d : α) :
    (init ++ [u, a]).getD init.length d = u := by
  induction init with
  | nil => rfl
  | cons c t ih => simpa [List.getD] using ih

theorem getD_pair_right {α : Type} (init : List α) (u a d : α) :
    (init ++ [u, a]).getD (init.length + 1) d = a := by
  induction init with
  | nil => rfl
  | cons c t ih => simpa [List.getD] using ih

theorem crawlLoop_succ (site : Nat → Option Page) (fuel page : Nat) (acc : List PhotoInfo)
    (pat : Option UrlPattern) (f : Nat) :
    crawlLoop site (fuel + 1) page acc pat f =
      match site page with
      | none => ⟨acc, pat, f + 1⟩
      | some soup =>
        if page = 1 then
          match detect_on_page soup with
          | none => ⟨[], none, f + 1⟩
          | some p =>
            if scanPage soup = [] then ⟨acc, some p, f + 1⟩
            else crawlLoop site fuel (page + 1) (acc ++ scanPage soup) (some p) (f + 1)
        else
          if scanPage soup = [] then ⟨acc, pat, f + 1⟩
          else crawlLoop site fuel (page + 1) (acc ++ scanPage soup) pat (f + 1) := rfl

theorem crawlLoop_fetched_le (site : Nat → Option Page) :
    ∀ fuel page acc pat f, (crawlLoop site fuel page acc pat f).fetched ≤ f + fuel := by
  intro fuel
  induction fuel with
  | zero => intro page acc pat f; simp [crawlLoop]
  | succ n ih =>
    intro page acc pat f
    rw [crawlLoop_succ]
    cases site page with
    | none => simp
    | some soup =>
      simp only
      by_cases h1 : page = 1
      · rw [if_pos h1]
        cases detect_on_page soup with
        | none => simp
        | some p =>
          simp only
          by_cases h2 : scanPage soup = []
          · rw [if_pos h2]; simp
          · rw [if_neg h2]
            have h3 := ih (page + 1) (acc ++ scanPage soup) (some p) (f + 1)
            omega
      · rw [if_neg h1]
        by_cases h2 : scanPage soup = []
        · rw [if_pos h2]; simp
        · rw [if_neg h2]
          have h3 := ih (page + 1) (acc ++ scanPage soup) pat (f + 1)
          omega

/-- C5: for every sequence of page results, including sites on which every
page yields a non-empty descriptor list, the crawl loop fetches at most 20
pages (the hard ceiling), so it always terminates within the ceiling. -/
theorem C5_crawl_fetches_at_most_twenty (site : Nat → Option Page) :
    (get_photo_ids site).fetched ≤ 20 := by
  have h := crawlLoop_fetched_le site 20 1 [] none 0
  simpa [get_photo_ids] using h

/-- C9: album identity extraction returns the last two parts of the
slash-split of the rstripped URL when there are at least four parts, and
the `unknown`/`album` defaults exactly when there are fewer than four. -/
theorem C9_album_identity (url : List Char) :
    (∀ front u a, splitOnChar '/' (rstripChar '/' url) = front ++ [u, a] →
      4 ≤ (splitOnChar '/' (rstripChar '/' url)).length →
      extract_album_info url = ⟨u, a⟩)
    ∧ ((splitOnChar '/' (rstripChar '/' url)).length < 4 →
      extract_album_info url = ⟨"unknown".toList, "album".toList⟩) := by
  constructor
  · intro front u a hsplit hlen
    unfold extract_album_info
    rw [hsplit] at hlen ⊢
    rw [if_pos hlen]
    have hl : (front ++ [u, a]).length = front.length + 2 := by simp
    have h2 : (front ++ [u, a]).length - 2 = front.length := by omega
    have h1 : (front ++ [u, a]).length - 1 = front.length + 1 := by omega
    rw [h2, h1, getD_pair_left, getD_pair_right]
  · intro h
    unfold extract_album_info
    rw [if_neg (by omega)]

theorem C9_album_identity_witness :
    extract_album_info "https://mojalbum.com/user/album".toList =
      ⟨"user".toList, "album".toList⟩ ∧
    extract_album_info "https://x".toList = ⟨"unknown".toList, "album".toList⟩ :=
  ⟨(C9_album_identity _).1 ["https:".toList, [], "mojalbum.com".toList]
      "user".toList "album".toList (by decide) (by decide),
    (C9_album_identity _).2 (by decide)⟩

/-- C10: a photo download whose fetch fails with a transport error returns
`False` and leaves the file store exactly as it was: the local file is
written only after a successful response, so no file is created or
modified by a failed download. -/
theorem C10_failed_download_atomic (fetch : List Char → Option (List Nat))
    (photo_url photo_id : List Char) (fs : FileStore) (h : fetch photo_url = none) :
    download_photo fetch photo_url photo_id fs = (false, fs) := by
  simp [download_photo, h]

theorem C10_failed_download_atomic_witness :
    download_photo (fun _ => none) "u".toList "7".toList [] = (false, []) :=
  C10_failed_download_atomic (fun _ => none) "u".toList "7".toList [] rfl

/-- C8: when the pattern detector yields nothing on page 1, the crawl
returns an empty descriptor list and no pattern after exactly one page
fetch, and the download manager performs zero download attempts, leaving
the file store unchanged. -/
theorem C8_pattern_not_found_fatal (site : Nat → Option Page) (p1 : Page)
    (fetch : List Char → Option (List Nat)) (fs : FileStore)
    (h1 : site 1 = some p1) (hd : detect_on_page p1 = none) :
    get_photo_ids site = ⟨[], none, 1⟩ ∧ download_all site fetch fs = ⟨0, 0, 0, fs⟩ := by
  have hcrawl : get_photo_ids site = ⟨[], none, 1⟩ := by
    unfold get_photo_ids
    rw [show (20 : Nat) = 19 + 1 from rfl, crawlLoop_succ, h1]
    simp [hd]
  refine ⟨hcrawl, ?_⟩
  unfold download_all
  rw [hcrawl]

theorem C8_pattern_not_found_fatal_witness :
    get_photo_ids (fun _ => some ([] : Page)) = ⟨[], none, 1⟩ ∧
    download_all (fun _ => some ([] : Page)) (fun _ => none) [] = ⟨0, 0, 0, []⟩ :=
  C8_pattern_not_found_fatal (fun _ => some ([] : Page)) [] (fun _ => none) [] rfl rfl

theorem crawlLoop_abort (site : Nat → Option Page) (pg : Nat → Page) (pat0 : UrlPattern)
    (N : Nat) (hfail : site N = none) :
    ∀ n fuel k acc f, k + n = N → 2 ≤ k → n + 1 ≤ fuel →
      (∀ i, k ≤ i → i < N → site i = some (pg i) ∧ scanPage (pg i) ≠ []) →
      crawlLoop site fuel k acc (some pat0) f =
        ⟨acc ++ (List.range' k n).flatMap (fun i => scanPage (pg i)), some pat0, f + n + 1⟩ := by
  intro n
  induction n with
  | zero =>
    intro fuel k acc f hkn _ hfuel _
    cases fuel with
    | zero => omega
    | succ m =>
      have hk : k = N := by omega
      subst hk
      rw [crawlLoop_succ, hfail]
      simp
  | succ n ih =>
    intro fuel k acc f hkn hk2 hfuel hpages
    have hkN : k < N := by omega
    obtain ⟨hsite, hscan⟩ := hpages k (le_refl k) hkN
    cases fuel with
    | zero => omega
    | succ m =>
      rw [crawlLoop_succ, hsite]
      simp only
      rw [if_neg (by omega : ¬ k = 1), if_neg hscan]
      rw [ih m (k + 1) (acc ++ scanPage (pg k)) (f + 1) (by omega) (by omega) (by omega)
        (fun i hi1 hi2 => hpages i (by omega) hi2)]
      rw [List.range'_succ]
      simp [List.append_assoc]
      omega

/-- C7: a transport failure on page N > 1 aborts the remaining pagination
without retrying, so the crawl stops after exactly N fetches and returns
the descriptors of pages 1 through N-1 with the detected pattern; a
transport failure on page 1 yields an empty descriptor list, no pattern,
and zero download attempts. -/
theorem C7_transport_error_aborts :
    (∀ (site : Nat → Option Page) (fetch : List Char → Option (List Nat)) (fs : FileStore),
      site 1 = none →
      get_photo_ids site = ⟨[], none, 1⟩ ∧ download_all site fetch fs = ⟨0, 0, 0, fs⟩)
    ∧ (∀ (site : Nat → Option Page) (pg : Nat → Page) (pat0 : UrlPattern) (N : Nat),
        2 ≤ N → N ≤ 20 → site N = none →
        (∀ i, 1 ≤ i → i < N → site i = some (pg i) ∧ scanPage (pg i) ≠ []) →
        detect_on_page (pg 1) = some pat0 →
        get_photo_ids site =
          ⟨(List.range' 1 (N - 1)).flatMap (fun i => scanPage (pg i)), some pat0, N⟩) := by
  constructor
  · intro site fetch fs h1
    have hcrawl : get_photo_ids site = ⟨[], none, 1⟩ := by
      unfold get_photo_ids
      rw [show (20 : Nat) = 19 + 1 from rfl, crawlLoop_succ, h1]
    refine ⟨hcrawl, ?_⟩
    unfold download_all
    rw [hcrawl]
  · intro site pg pat0 N hN2 hN20 hfail hpages hdet
    obtain ⟨hsite1, hscan1⟩ := hpages 1 (le_refl 1) (by omega)
    unfold get_photo_ids
    rw [show (20 : Nat) = 19 + 1 from rfl, crawlLoop_succ, hsite1]
    simp only [if_pos rfl]
    rw [hdet]
    simp only
    rw [if_neg hscan1]
    rw [crawlLoop_abort site pg pat0 N hfail (N - 2) 19 2 ([] ++ scanPage (pg 1)) 1
      (by omega) (le_refl 2) (by omega) (fun i hi1 hi2 => hpages i (by omega) hi2)]
    have hrange : List.range' 1 (N - 1) = 1 :: List.range' 2 (N - 2) := by
      rw [show N - 1 = (N - 2) + 1 from by omega, List.range'_succ]
    rw [hrange]
    simp
    omega

theorem C7_transport_error_aborts_witness :
    (get_photo_ids (fun _ => none) = ⟨[], none, 1⟩ ∧
      download_all (fun _ => none) (fun _ => none) [] = ⟨0, 0, 0, []⟩) ∧
    get_photo_ids
        (fun n => if n = 1 then
          some [⟨"https://s6.mojalbum.com/100_200_55/vacation/55_t.jpg".toList, []⟩] else none) =
      ⟨[⟨"55".toList, false, []⟩],
        some ⟨"6".toList, "100_200".toList, "vacation".toList⟩, 2⟩ := by
  constructor
  · exact C7_transport_error_aborts.1 (fun _ => none) (fun _ => none) [] rfl
  · have h := C7_transport_error_aborts.2
      (fun n => if n = 1 then
        some [⟨"https://s6.mojalbum.com/100_200_55/vacation/55_t.jpg".toList, []⟩] else none)
      (fun _ => [⟨"https://s6.mojalbum.com/100_200_55/vacation/55_t.jpg".toList, []⟩])
      ⟨"6".toList, "100_200".toList, "vacation".toList⟩ 2 (by omega) (by omega) rfl
      (fun i hi1 hi2 => by
        have hi : i = 1 := by omega
        subst hi
        exact ⟨rfl, by decide⟩)
      (by decide)
    exact h.trans (by decide)

theorem fileExists_cons (name : List Char) (x : List Char × List Nat) (fs : FileStore)
    (h : fileExists name fs = true) : fileExists name (x :: fs) = true := by
  simp [fileExists] at h ⊢
  exact Or.inr h

theorem fileExists_head (pid : List Char) (bytes : List Nat) (fs : FileStore) :
    fileExists pid ((pid, bytes) :: fs) = true := by
  simp [fileExists]

theorem runDownloads_files_mono (fetch : List Char → Option (List Nat)) (pat : UrlPattern)
    (name : List Char) :
    ∀ ds fs, fileExists name fs = true →
      fileExists name (runDownloads fetch pat ds fs).files = true := by
  intro ds
  induction ds with
  | nil => intro fs h; simpa [runDownloads] using h
  | cons q rest ih =>
    intro fs h
    rw [runDownloads]
    by_cases hq : fileExists (q.id ++ ".jpg".toList) fs = true
    · rw [if_pos hq]; exact ih fs h
    · rw [if_neg hq]
      cases hf : fetch (construct_direct_url q pat) with
      | none =>
        simp only [download_photo, hf]
        by_cases hb : (false : Bool) = true
        · simp at hb
        · simp only [Bool.false_eq_true, if_false]
          exact ih fs h
      | some bytes =>
        simp only [download_photo, hf, if_true]
        exact ih _ (fileExists_cons name _ fs h)

theorem runDownloads_covers (fetch : List Char → Option (List Nat)) (pat : UrlPattern) :
    ∀ ds fs, ∀ p ∈ ds,
      fileExists (p.id ++ ".jpg".toList) (runDownloads fetch pat ds fs).files = true ∨
        fetch (construct_direct_url p pat) = none := by
  intro ds
  induction ds with
  | nil => intro fs p hp; simp at hp
  | cons q rest ih =>
    intro fs p hp
    rw [runDownloads]
    by_cases hq : fileExists (q.id ++ ".jpg".toList) fs = true
    · rw [if_pos hq]
      rcases List.mem_cons.mp hp with hpq | hpr
      · subst hpq
        exact Or.inl (runDownloads_files_mono fetch pat _ rest fs hq)
      · exact ih fs p hpr
    · rw [if_neg hq]
      cases hf : fetch (construct_direct_url q pat) with
      | none =>
        simp only [download_photo, hf, Bool.false_eq_true, if_false]
        rcases List.mem_cons.mp hp with hpq | hpr
        · subst hpq; exact Or.inr hf
        · rcases ih fs p hpr with hl | hr
          · exact Or.inl hl
          · exact Or.inr hr
      | some bytes =>
        simp only [download_photo, hf, if_true]
        rcases List.mem_cons.mp hp with hpq | hpr
        · subst hpq
          exact Or.inl (runDownloads_files_mono fetch pat _ rest _
            (fileExists_head (p.id ++ ".jpg".toList) bytes fs))
        · exact ih _ p hpr

theorem runDownloads_noop (fetch : List Char → Option (List Nat)) (pat : UrlPattern) :
    ∀ ds fs,
      (∀ p ∈ ds, fileExists (p.id ++ ".jpg".toList) fs = true ∨
        fetch (construct_direct_url p pat) = none) →
      (runDownloads fetch pat ds fs).successful = 0 ∧
        (runDownloads fetch pat ds fs).files = fs := by
  intro ds
  induction ds with
  | nil => intro fs _; simp [runDownloads]
  | cons q rest ih =>
    intro fs h
    rw [runDownloads]
    by_cases hq : fileExists (q.id ++ ".jpg".toList) fs = true
    · rw [if_pos hq]
      exact ih fs fun p hp => h p (List.mem_cons_of_mem q hp)
    · rw [if_neg hq]
      rcases h q (List.mem_cons_self q rest) with hl | hf
      · exact absurd hl hq
      · simp only [download_photo, hf, Bool.false_eq_true, if_false]
        have ht := ih fs fun p hp => h p (List.mem_cons_of_mem q hp)
        simpa using ht

theorem runDownloads_all_exist (fetch : List Char → Option (List Nat)) (pat : UrlPattern) :
    ∀ ds fs, (runDownloads fetch pat ds fs).failed = 0 →
      ∀ p ∈ ds, fileExists (p.id ++ ".jpg".toList) (runDownloads fetch pat ds fs).files = true := by
  intro ds
  induction ds with
  | nil => intro fs _ p hp; simp at hp
  | cons q rest ih =>
    intro fs hfail p hp
    rw [runDownloads] at hfail ⊢
    by_cases hq : fileExists (q.id ++ ".jpg".toList) fs = true
    · rw [if_pos hq] at hfail ⊢
      rcases List.mem_cons.mp hp with hpq | hpr
      · subst hpq
        exact runDownloads_files_mono fetch pat _ rest fs hq
      · exact ih fs hfail p hpr
    · rw [if_neg hq] at hfail ⊢
      cases hf : fetch (construct_direct_url q pat) with
      | none =>
        rw [show download_photo fetch (construct_direct_url q pat) q.id fs = (false, fs) from
          by simp [download_photo, hf]] at hfail
        simp at hfail
      | some bytes =>
        rw [show download_photo fetch (construct_direct_url q pat) q.id fs =
            (true, (q.id ++ ".jpg".toList, bytes) :: fs) from by simp [download_photo, hf]]
          at hfail ⊢
        simp only [if_true] at hfail ⊢
        rcases List.mem_cons.mp hp with hpq | hpr
        · subst hpq
          exact runDownloads_files_mono fetch pat _ rest _
            (fileExists_head (p.id ++ ".jpg".toList) bytes fs)
        · exact ih _ (by simpa using hfail) p hpr

theorem runDownloads_all_skip (fetch : List Char → Option (List Nat)) (pat : UrlPattern) :
    ∀ ds fs, (∀ p ∈ ds, fileExists (p.id ++ ".jpg".toList) fs = true) →
      runDownloads fetch pat ds fs = ⟨0, 0, 0, fs⟩ := by
  intro ds
  induction ds with
  | nil => intro fs _; rfl
  | cons q rest ih =>
    intro fs h
    rw [runDownloads, if_pos (h q (List.mem_cons_self q rest))]
    exact ih fs fun p hp => h p (List.mem_cons_of_mem q hp)

/-- C6 counterexample: with a single descriptor whose fetch fails, the
first run records one failure and stores nothing, and the second run
retries and fails again, so the second run's failure count is not zero as
the claim states. -/
theorem C6_counterexample :
    ¬ (runDownloads (fun _ => none) ⟨"6".toList, "100_200".toList, "vacation".toList⟩
        [⟨"55".toList, false, []⟩]
        (runDownloads (fun _ => none) ⟨"6".toList, "100_200".toList, "vacation".toList⟩
          [⟨"55".toList, false, []⟩] []).files).failed = 0 := by
  decide

/-- C6 amended: running the download manager a second time on the same
descriptor list and destination skips every descriptor whose file exists,
performs zero new successful downloads, and leaves the file set identical;
the second run also has zero failures (and zero attempts) provided the
first run had zero failures — a descriptor whose fetch failed is retried,
not skipped. -/
theorem C6_idempotent_rerun (fetch : List Char → Option (List Nat)) (pat : UrlPattern)
    (ds : List PhotoInfo) (fs0 : FileStore) :
    (runDownloads fetch pat ds (runDownloads fetch pat ds fs0).files).successful = 0 ∧
    (runDownloads fetch pat ds (runDownloads fetch pat ds fs0).files).files =
      (runDownloads fetch pat ds fs0).files ∧
    ((runDownloads fetch pat ds fs0).failed = 0 →
      runDownloads fetch pat ds (runDownloads fetch pat ds fs0).files =
        ⟨0, 0, 0, (runDownloads fetch pat ds fs0).files⟩) := by
  have hcov : ∀ p ∈ ds,
      fileExists (p.id ++ ".jpg".toList) (runDownloads fetch pat ds fs0).files = true ∨
        fetch (construct_direct_url p pat) = none :=
    runDownloads_covers fetch pat ds fs0
  have hnoop := runDownloads_noop fetch pat ds (runDownloads fetch pat ds fs0).files hcov
  refine ⟨hnoop.1, hnoop.2, ?_⟩
  intro hfail
  exact runDownloads_all_skip fetch pat ds (runDownloads fetch pat ds fs0).files
    (runDownloads_all_exist fetch pat ds fs0 hfail)

theorem C6_idempotent_rerun_witness :
    (runDownloads (fun _ => some [7]) ⟨"6".toList, "100_200".toList, "vacation".toList⟩
        [⟨"55".toList, false, []⟩]
        (runDownloads (fun _ => some [7]) ⟨"6".toList, "100_200".toList, "vacation".toList⟩
          [⟨"55".toList, false, []⟩] []).files) =
      ⟨0, 0, 0, [("55.jpg".toList, [7])]⟩ := by
  have h := (C6_idempotent_rerun (fun _ => some [7])
    ⟨"6".toList, "100_200".toList, "vacation".toList⟩ [⟨"55".toList, false, []⟩] []).2.2
    (by decide)
  exact h.trans (by decide)

/-- C3 counterexample: a synthetic thumbnail source with a numeric filename
and a well-shaped middle segment is matched by Rule A and by Rule B at the
same time, so the two extraction rules are not mutually exclusive as raw
patterns. -/
theorem C3_counterexample :
    (ruleA "https://s1.mojalbum.com/1_2/alb/3_t.jpg".toList).isSome = true ∧
    (ruleB "https://s1.mojalbum.com/1_2/alb/3_t.jpg".toList).isSome = true := by
  decide

/-- C3 amended: the two rules are tried in order, Rule B only when Rule A
fails, so each surviving candidate yields at most one descriptor, produced
by exactly one applied rule (the raw patterns themselves can both match). -/
theorem C3_rules_applied_in_order (src : List Char) (info : PhotoInfo)
    (h : extractPhoto src = some info) :
    (ruleA src = some info.id ∧ info.has_description = false ∧ info.description = []) ∨
    (ruleA src = none ∧ ruleB src = some (info.id, info.description) ∧
      info.has_description = true) := by
  unfold extractPhoto at h
  cases ha : ruleA src with
  | some pid =>
    rw [ha] at h
    simp only [Option.some.injEq] at h
    subst h
    exact Or.inl ⟨rfl, rfl, rfl⟩
  | none =>
    rw [ha] at h
    cases hb : ruleB src with
    | some pd =>
      rw [hb] at h
      cases pd with
      | mk pid descr =>
        simp only [Option.some.injEq] at h
        subst h
        exact Or.inr ⟨rfl, rfl, rfl⟩
    | none => rw [hb] at h; simp at h

theorem C3_rules_applied_in_order_witness :
    (ruleA "https://s1.mojalbum.com/10_77/alb/scenic-view_t.jpg".toList =
        some "77".toList ∧ (true : Bool) = false ∧ "scenic-view".toList = ([] : List Char)) ∨
    (ruleA "https://s1.mojalbum.com/10_77/alb/scenic-view_t.jpg".toList = none ∧
      ruleB "https://s1.mojalbum.com/10_77/alb/scenic-view_t.jpg".toList =
        some ("77".toList, "scenic-view".toList) ∧ (true : Bool) = true) :=
  C3_rules_applied_in_order "https://s1.mojalbum.com/10_77/alb/scenic-view_t.jpg".toList
    ⟨"77".toList, true, "scenic-view".toList⟩ (by decide)

theorem hasMarkerWithin_iff :
    ∀ (n : Nat) (anc : List (Option (List Char))),
      hasMarkerWithin n anc = true ↔ ∃ i, i < n ∧ anc.get? i = some (some markerId) := by
  intro n
  induction n with
  | zero => intro anc; simp [hasMarkerWithin]
  | succ m ih =>
    intro anc
    cases anc with
    | nil => simp [hasMarkerWithin]
    | cons a rest =>
      by_cases ha : a = some markerId
      · simp only [hasMarkerWithin, if_pos ha]
        constructor
        · intro _; exact ⟨0, by omega, by simp [ha]⟩
        · intro _; trivial
      · simp only [hasMarkerWithin, if_neg ha]
        rw [ih rest]
        constructor
        · rintro ⟨i, hi, hget⟩
          exact ⟨i + 1, by omega, by simpa using hget⟩
        · rintro ⟨i, hi, hget⟩
          cases i with
          | zero => simp at hget; exact absurd hget ha
          | succ j => exact ⟨j, by omega, by simpa using hget⟩

/-- C4: a thumbnail whose ancestor chain carries the exclusion identifier
within the 15-level traversal bound contributes nothing to the scanner
output, and a descriptor is in the scanner's output exactly when some img
element of the page passes the substring filter, has no excluded ancestor
within the first 15 levels (deeper markers are not filtered), and yields
the descriptor through the extraction rules. -/
theorem C4_exclusion_zone :
    (∀ img : ImgElem, (∃ i, i < 15 ∧ img.ancestors.get? i = some (some markerId)) →
      candStep img = none) ∧
    (∀ (p : Page) (d : PhotoInfo),
      d ∈ scanPage p ↔ ∃ img, img ∈ p ∧
        (containsSubstr "_t.jpg".toList img.src &&
          containsSubstr "mojalbum.com".toList img.src) = true ∧
        (∀ i, i < 15 → img.ancestors.get? i ≠ some (some markerId)) ∧
        extractPhoto img.src = some d) := by
  constructor
  · intro img hex
    have hm : hasMarkerWithin 15 img.ancestors = true :=
      (hasMarkerWithin_iff 15 img.ancestors).mpr hex
    unfold candStep
    rw [hm]
    simp
  · intro p d
    unfold scanPage
    rw [List.mem_filterMap]
    constructor
    · rintro ⟨img, hmem, hstep⟩
      refine ⟨img, hmem, ?_, ?_, ?_⟩
      · unfold candStep at hstep
        by_cases hf : (containsSubstr "_t.jpg".toList img.src &&
            containsSubstr "mojalbum.com".toList img.src) = true
        · exact hf
        · rw [if_neg hf] at hstep; exact absurd hstep (by simp)
      · intro i hi hget
        unfold candStep at hstep
        have hm : hasMarkerWithin 15 img.ancestors = true :=
          (hasMarkerWithin_iff 15 img.ancestors).mpr ⟨i, hi, hget⟩
        rw [hm] at hstep
        by_cases hf : (containsSubstr "_t.jpg".toList img.src &&
            containsSubstr "mojalbum.com".toList img.src) = true
        · rw [if_pos hf] at hstep; exact absurd hstep (by simp)
        · rw [if_neg hf] at hstep; exact absurd hstep (by simp)
      · unfold candStep at hstep
        by_cases hf : (containsSubstr "_t.jpg".toList img.src &&
            containsSubstr "mojalbum.com".toList img.src) = true
        · rw [if_pos hf] at hstep
          by_cases hm : hasMarkerWithin 15 img.ancestors = true
          · rw [hm] at hstep; exact absurd hstep (by simp)
          · rw [Bool.not_eq_true] at hm
            rw [hm] at hstep
            simpa using hstep
        · rw [if_neg hf] at hstep; exact absurd hstep (by simp)
    · rintro ⟨img, hmem, hf, hanc, hext⟩
      refine ⟨img, hmem, ?_⟩
      have hm : hasMarkerWithin 15 img.ancestors = false := by
        cases hm : hasMarkerWithin 15 img.ancestors with
        | false => rfl
        | true =>
          obtain ⟨i, hi, hget⟩ := (hasMarkerWithin_iff 15 img.ancestors).mp hm
          exact absurd hget (hanc i hi)
      unfold candStep
      rw [if_pos hf, hm]
      simpa using hext

theorem C4_exclusion_zone_witness :
    candStep ⟨"https://s6.mojalbum.com/100_200_55/vacation/55_t.jpg".toList,
      List.replicate 14 none ++ [some markerId]⟩ = none ∧
    (⟨"55".toList, false, []⟩ : PhotoInfo) ∈ scanPage
      [⟨"https://s6.mojalbum.com/100_200_55/vacation/55_t.jpg".toList,
        List.replicate 15 none ++ [some markerId]⟩] :=
  ⟨C4_exclusion_zone.1 _ ⟨14, by omega, by decide⟩,
    (C4_exclusion_zone.2 _ _).mpr
      ⟨⟨"https://s6.mojalbum.com/100_200_55/vacation/55_t.jpg".toList,
          List.replicate 15 none ++ [some markerId]⟩,
        by simp, by decide, by decide, by decide⟩⟩

theorem splitOnChar_seg (c : Char) (a y : List Char) (h : c ∉ a) :
    splitOnChar c (a ++ c :: y) = a :: splitOnChar c y := by
  rw [splitOnChar_append, splitOnChar_no_sep c a h]
  rfl

theorem split_construct (server middle pid album fname : List Char)
    (hs : '/' ∉ server) (hm : '/' ∉ middle) (hi : '/' ∉ pid) (ha : '/' ∉ album)
    (hf : '/' ∉ fname) :
    splitOnChar '/' ("https://s".toList ++ server ++ ".mojalbum.com/".toList ++
        middle ++ "_".toList ++ pid ++ "/".toList ++ album ++ "/".toList ++
        fname ++ ".jpg".toList) =
      ["https:".toList, [], 's' :: (server ++ ".mojalbum.com".toList),
        middle ++ '_' :: pid, album, fname ++ ".jpg".toList] := by
  have hform : "https://s".toList ++ server ++ ".mojalbum.com/".toList ++
      middle ++ "_".toList ++ pid ++ "/".toList ++ album ++ "/".toList ++
      fname ++ ".jpg".toList =
      "https:".toList ++ '/' :: ([] ++ '/' :: (('s' :: (server ++ ".mojalbum.com".toList)) ++
        '/' :: ((middle ++ '_' :: pid) ++ '/' :: (album ++ '/' ::
          (fname ++ ".jpg".toList))))) := by
    rw [show "https://s".toList = "https:".toList ++ ['/', '/', 's'] from by decide,
      show ".mojalbum.com/".toList = ".mojalbum.com".toList ++ ['/'] from by decide,
      show ("_".toList : List Char) = ['_'] from by decide,
      show ("/".toList : List Char) = ['/'] from by decide]
    simp [List.append_assoc]
  have h1 : '/' ∉ "https:".toList := by decide
  have h2 : '/' ∉ ([] : List Char) := by decide
  have h3 : '/' ∉ 's' :: (server ++ ".mojalbum.com".toList) := by
    simp only [List.mem_cons, List.mem_append]
    push_neg
    exact ⟨by decide, hs, by decide⟩
  have h4 : '/' ∉ middle ++ '_' :: pid := by
    simp only [List.mem_append, List.mem_cons]
    push_neg
    exact ⟨hm, by decide, hi⟩
  have h6 : '/' ∉ fname ++ ".jpg".toList := by
    simp only [List.mem_append]
    push_neg
    exact ⟨hf, by decide⟩
  rw [hform, splitOnChar_seg _ _ _ h1, splitOnChar_seg _ _ _ h2,
    splitOnChar_seg _ _ _ h3, splitOnChar_seg _ _ _ h4, splitOnChar_seg _ _ _ ha,
    splitOnChar_no_sep _ _ h6]

/-- C2: the URL reconstructor returns exactly the template URL — filename
`description` when `has_description` is set and `id` otherwise — and the
result decomposes on slashes into the protocol part, the host with server
id, the `middle_id` segment, the album path, and the filename, provided
the pattern and descriptor fields are slash-free. -/
theorem C2_url_reconstructor (p : PhotoInfo) (pat : UrlPattern)
    (hs : '/' ∉ pat.server) (hm : '/' ∉ pat.middle_part) (hi : '/' ∉ p.id)
    (ha : '/' ∉ pat.album_path) (hd : '/' ∉ p.description) :
    construct_direct_url p pat =
      "https://s".toList ++ pat.server ++ ".mojalbum.com/".toList ++ pat.middle_part ++
        "_".toList ++ p.id ++ "/".toList ++ pat.album_path ++ "/".toList ++
        (if p.has_description then p.description else p.id) ++ ".jpg".toList ∧
    splitOnChar '/' (construct_direct_url p pat) =
      ["https:".toList, [], 's' :: (pat.server ++ ".mojalbum.com".toList),
        pat.middle_part ++ '_' :: p.id, pat.album_path,
        (if p.has_description then p.description else p.id) ++ ".jpg".toList] := by
  cases hdesc : p.has_description with
  | true =>
    constructor
    · simp [construct_direct_url, hdesc]
    · rw [show construct_direct_url p pat =
          "https://s".toList ++ pat.server ++ ".mojalbum.com/".toList ++ pat.middle_part ++
            "_".toList ++ p.id ++ "/".toList ++ pat.album_path ++ "/".toList ++
            p.description ++ ".jpg".toList from by simp [construct_direct_url, hdesc]]
      rw [if_pos rfl]
      exact split_construct pat.server pat.middle_part p.id pat.album_path p.description
        hs hm hi ha hd
  | false =>
    constructor
    · simp [construct_direct_url, hdesc]
    · rw [show construct_direct_url p pat =
          "https://s".toList ++ pat.server ++ ".mojalbum.com/".toList ++ pat.middle_part ++
            "_".toList ++ p.id ++ "/".toList ++ pat.album_path ++ "/".toList ++
            p.id ++ ".jpg".toList from by simp [construct_direct_url, hdesc]]
      rw [if_neg Bool.false_ne_true]
      exact split_construct pat.server pat.middle_part p.id pat.album_path p.id
        hs hm hi ha hi

theorem C2_url_reconstructor_witness :
    construct_direct_url ⟨"55".toList, false, []⟩
        ⟨"6".toList, "100_200".toList, "vacation".toList⟩ =
      "https://s6.mojalbum.com/100_200_55/vacation/55.jpg".toList ∧
    splitOnChar '/' (construct_direct_url ⟨"55".toList, false, []⟩
        ⟨"6".toList, "100_200".toList, "vacation".toList⟩) =
      ["https:".toList, [], "s6.mojalbum.com".toList, "100_200_55".toList,
        "vacation".toList, "55.jpg".toList] := by
  have h := C2_url_reconstructor ⟨"55".toList, false, []⟩
    ⟨"6".toList, "100_200".toList, "vacation".toList⟩
    (by decide) (by decide) (by decide) (by decide) (by decide)
  exact ⟨h.1.trans (by decide), h.2.trans (by decide)⟩

theorem dropLit_slash (x : List Char) : dropLit ['/'] ('/' :: x) = some x :=
  dropLit_append ['/'] x

theorem matchThumbAt_template (server middle photoid albumpath : List Char)
    (hs1 : server ≠ []) (hs2 : ∀ c ∈ server, c.isDigit = true)
    (hm : '/' ∉ middle)
    (hp1 : photoid ≠ []) (hp2 : ∀ c ∈ photoid, c.isDigit = true)
    (ha1 : albumpath ≠ []) (ha2 : '/' ∉ albumpath) :
    matchThumbAt (thumbTemplate server middle photoid albumpath) =
      some (server, middle ++ '_' :: photoid, albumpath, photoid) := by
  have h1 : dropLit "https://s".toList (thumbTemplate server middle photoid albumpath) =
      some (server ++ (".mojalbum.com/".toList ++ (middle ++ '_' :: photoid ++ '/' ::
        albumpath ++ '/' :: photoid ++ "_t.jpg".toList))) := by
    rw [thumbTemplate]
    rw [show "https://s".toList ++ server ++ ".mojalbum.com/".toList ++ middle ++ '_' :: photoid
        ++ '/' :: albumpath ++ '/' :: photoid ++ "_t.jpg".toList =
        "https://s".toList ++ (server ++ (".mojalbum.com/".toList ++ (middle ++ '_' :: photoid
        ++ '/' :: albumpath ++ '/' :: photoid ++ "_t.jpg".toList))) from by
      simp [List.append_assoc]]
    exact dropLit_append _ _
  have hdig : ∀ c ∈ server, (fun c : Char => c.isDigit) c = true := hs2
  have htake1 : (server ++ ('.' :: ("mojalbum.com/".toList ++ (middle ++ '_' :: photoid ++ '/' ::
      albumpath ++ '/' :: photoid ++ "_t.jpg".toList)))).takeWhile (fun c => c.isDigit) =
      server :=
    takeWhile_append_stop _ server '.' _ hdig (by decide)
  have hdrop1 : (server ++ ('.' :: ("mojalbum.com/".toList ++ (middle ++ '_' :: photoid ++ '/' ::
      albumpath ++ '/' :: photoid ++ "_t.jpg".toList)))).dropWhile (fun c => c.isDigit) =
      '.' :: ("mojalbum.com/".toList ++ (middle ++ '_' :: photoid ++ '/' ::
      albumpath ++ '/' :: photoid ++ "_t.jpg".toList)) :=
    dropWhile_append_stop _ server '.' _ hdig (by decide)
  have h2 : dropLit ('.' :: "mojalbum.com/".toList) ('.' :: ("mojalbum.com/".toList ++
      (middle ++ '_' :: photoid ++ '/' :: albumpath ++ '/' :: photoid ++ "_t.jpg".toList))) =
      some (middle ++ '_' :: photoid ++ '/' :: albumpath ++ '/' :: photoid ++
        "_t.jpg".toList) :=
    dropLit_append _ _
  have hseg2 : ∀ c ∈ middle ++ '_' :: photoid, (fun c : Char => decide (c ≠ '/')) c = true := by
    intro c hc
    simp only [decide_eq_true_eq]
    rcases List.mem_append.mp hc with hcm | hcp
    · exact fun he => hm (he ▸ hcm)
    · rcases List.mem_cons.mp hcp with hcu | hcd
      · subst hcu; decide
      · intro he
        have hdig2 := hp2 c hcd
        rw [he] at hdig2
        exact absurd hdig2 (by decide)
  have hre : middle ++ '_' :: photoid ++ '/' :: albumpath ++ '/' :: photoid ++
      "_t.jpg".toList = (middle ++ '_' :: photoid) ++ '/' :: (albumpath ++ '/' ::
      (photoid ++ "_t.jpg".toList)) := by
    simp [List.append_assoc]
  have htake2 : ((middle ++ '_' :: photoid) ++ '/' :: (albumpath ++ '/' ::
      (photoid ++ "_t.jpg".toList))).takeWhile (fun c => decide (c ≠ '/')) =
      middle ++ '_' :: photoid :=
    takeWhile_append_stop _ _ '/' _ hseg2 (by decide)
  have hdrop2 : ((middle ++ '_' :: photoid) ++ '/' :: (albumpath ++ '/' ::
      (photoid ++ "_t.jpg".toList))).dropWhile (fun c => decide (c ≠ '/')) =
      '/' :: (albumpath ++ '/' :: (photoid ++ "_t.jpg".toList)) :=
    dropWhile_append_stop _ _ '/' _ hseg2 (by decide)
  have halb : ∀ c ∈ albumpath, (fun c : Char => decide (c ≠ '/')) c = true := by
    intro c hc
    simp only [decide_eq_true_eq]
    exact fun he => ha2 (he ▸ hc)
  have htake3 : (albumpath ++ '/' :: (photoid ++ "_t.jpg".toList)).takeWhile
      (fun c => decide (c ≠ '/')) = albumpath :=
    takeWhile_append_stop _ _ '/' _ halb (by decide)
  have hdrop3 : (albumpath ++ '/' :: (photoid ++ "_t.jpg".toList)).dropWhile
      (fun c => decide (c ≠ '/')) = '/' :: (photoid ++ "_t.jpg".toList) :=
    dropWhile_append_stop _ _ '/' _ halb (by decide)
  have hrun : (photoid ++ "_t.jpg".toList).takeWhile (fun c => decide (c ≠ '/')) =
      photoid ++ "_t.jpg".toList := by
    refine takeWhile_of_all _ _ ?_
    intro c hc
    simp only [decide_eq_true_eq]
    rcases List.mem_append.mp hc with hcd | hcl
    · intro he
      have hdig2 := hp2 c hcd
      rw [he] at hdig2
      exact absurd hdig2 (by decide)
    · intro he
      rw [he] at hcl
      exact absurd hcl (by decide)
  have hsplit : splitLastAt "_t.jpg".toList (photoid ++ "_t.jpg".toList) =
      some (photoid, []) := splitLastAt_append_self _ _
  have hne2 : ¬ (middle ++ '_' :: photoid = []) := by simp
  have hlit : (".mojalbum.com/".toList : List Char) = '.' :: "mojalbum.com/".toList := by decide
  unfold matchThumbAt
  rw [h1, Option.some_bind]
  rw [hlit, List.cons_append, htake1, hdrop1, if_neg hs1, h2, Option.some_bind]
  rw [hre, htake2, hdrop2, if_neg hne2, dropLit_slash, Option.some_bind]
  rw [htake3, hdrop3, if_neg ha1, dropLit_slash, Option.some_bind]
  rw [hrun, hsplit, Option.some_bind]
  rw [if_neg hp1]


theorem containsSubstr_append_right (pat a : List Char) (hpat : pat ≠ []) :
    containsSubstr pat (a ++ pat) = true := by
  have h := containsSubstr_parts pat a [] hpat
  rwa [List.append_nil] at h

theorem searchThumb_of_match (s : List Char)
    (g : List Char × List Char × List Char × List Char)
    (h : matchThumbAt s = some g) : searchThumb s = some g := by
  cases s with
  | nil =>
    have hnone : matchThumbAt [] = none := by decide
    rw [hnone] at h
    exact absurd h (by simp)
  | cons c rest =>
    rw [searchThumb, h]

/-- C1: on the spec's example page the pattern detector returns server 6,
middle part `100_200` and album path `vacation`; and in general, on any
source built from the structural template
`https://s SERVER .host/ MIDDLE _ PHOTOID / ALBUMPATH / PHOTOID _t.jpg`
(digit server and photo id, slash-free middle and album path), it returns
the server digits, the captured middle segment with its last
underscore-separated component removed — which is exactly the MIDDLE part,
i.e. the trailing `_PHOTOID` is stripped — and the album path verbatim. -/
theorem C1_pattern_detector :
    detect_album_pattern ["https://s6.mojalbum.com/100_200_55/vacation/55_t.jpg".toList] =
      some ⟨"6".toList, "100_200".toList, "vacation".toList⟩ ∧
    (∀ server middle photoid albumpath : List Char,
      server ≠ [] → (∀ c ∈ server, c.isDigit = true) →
      '/' ∉ middle →
      photoid ≠ [] → (∀ c ∈ photoid, c.isDigit = true) →
      albumpath ≠ [] → '/' ∉ albumpath →
      detect_album_pattern [thumbTemplate server middle photoid albumpath] =
        some ⟨server, removeLastComponent (middle ++ '_' :: photoid), albumpath⟩ ∧
      removeLastComponent (middle ++ '_' :: photoid) = middle) := by
  constructor
  · decide
  · intro server middle photoid albumpath hs1 hs2 hm hp1 hp2 ha1 ha2
    have hnunder : '_' ∉ photoid := by
      intro hmem
      have hdig := hp2 '_' hmem
      exact absurd hdig (by decide)
    have hmatch := matchThumbAt_template server middle photoid albumpath
      hs1 hs2 hm hp1 hp2 ha1 ha2
    have hsearch := searchThumb_of_match _ _ hmatch
    have hAsub : containsSubstr "_t.jpg".toList
        (thumbTemplate server middle photoid albumpath) = true := by
      rw [thumbTemplate]
      rw [show "https://s".toList ++ server ++ ".mojalbum.com/".toList ++ middle ++
          '_' :: photoid ++ '/' :: albumpath ++ '/' :: photoid ++ "_t.jpg".toList =
          ("https://s".toList ++ server ++ ".mojalbum.com/".toList ++ middle ++
          '_' :: photoid ++ '/' :: albumpath ++ '/' :: photoid) ++ "_t.jpg".toList from by
        simp [List.append_assoc]]
      exact containsSubstr_append_right _ _ (by decide)
    have hBsub : containsSubstr "mojalbum.com".toList
        (thumbTemplate server middle photoid albumpath) = true := by
      rw [thumbTemplate]
      rw [show "https://s".toList ++ server ++ ".mojalbum.com/".toList ++ middle ++
          '_' :: photoid ++ '/' :: albumpath ++ '/' :: photoid ++ "_t.jpg".toList =
          ("https://s".toList ++ server ++ ['.']) ++ ("mojalbum.com".toList ++
          ('/' :: (middle ++ '_' :: photoid ++ '/' :: albumpath ++ '/' :: photoid ++
          "_t.jpg".toList))) from by
        rw [show (".mojalbum.com/".toList : List Char) =
          '.' :: ("mojalbum.com".toList ++ ['/']) from by decide]
        simp [List.append_assoc]]
      exact containsSubstr_parts _ _ _ (by decide)
    have hdetect : detect_album_pattern [thumbTemplate server middle photoid albumpath] =
        some ⟨server, rsplitLast '_' (middle ++ '_' :: photoid), albumpath⟩ := by
      simp only [detect_album_pattern, hAsub, hBsub, Bool.and_self, if_true, hsearch]
    have hrsp : rsplitLast '_' (middle ++ '_' :: photoid) = middle :=
      rsplitLast_append '_' middle photoid hnunder
    have hrem : removeLastComponent (middle ++ '_' :: photoid) = middle :=
      removeLastComponent_append middle photoid hnunder
    refine ⟨?_, hrem⟩
    rw [hdetect, hrsp, hrem]

theorem C1_pattern_detector_witness :
    (detect_album_pattern
        [thumbTemplate "6".toList "100_200".toList "55".toList "vacation".toList] =
      some ⟨"6".toList,
        removeLastComponent ("100_200".toList ++ '_' :: "55".toList), "vacation".toList⟩) ∧
    removeLastComponent ("100_200".toList ++ '_' :: "55".toList) = "100_200".toList :=
  C1_pattern_detector.2 "6".toList "100_200".toList "55".toList "vacation".toList
    (by decide) (by decide) (by decide) (by decide) (by decide) (by decide) (by decide)

end MojAlbum
